import Mathlib

/-!
Verification of the QT devotional fetch/format pipeline (`src/main.py`).

Strings are modelled as `List Char` (Python `str` is a sequence of code
points, as is a Lean `List Char`).  The regular expression at main.py:55,

  본문\s*[:]?\s*(.*?)\s*[(]?찬송(?:가)?\s*[:]?\s*(.*?)[)]?$

is embedded as a backtracking matcher in the list-of-successes style: every
sub-pattern maps an input remainder to the list of possible remainders in
the order Python's `re` engine explores them (greedy pieces longest first,
lazy pieces shortest first), and `re.search` takes the first complete
success at the leftmost starting position.  `.` does not match a newline,
and `$` matches at the end of the string or just before a final newline,
as in Python without `re.DOTALL`/`re.MULTILINE`.  `\s` is modelled over
the six ASCII whitespace characters.
-/

set_option maxRecDepth 4000

namespace QT

/-- The ASCII whitespace characters matched by `\s` and stripped by `str.strip()`. -/
def isWs (c : Char) : Bool :=
  c = ' ' || c = '\t' || c = '\n' || c = '\r' || c = '\u000B' || c = '\u000C'

/-- Python `str.strip()`: drop whitespace from both ends. -/
def strip (s : List Char) : List Char :=
  ((s.dropWhile isWs).reverse.dropWhile isWs).reverse

/-- Scan loop of Python `str.replace(pat, repl)`: at each position, if
`pat` is a prefix, emit `repl` and skip past the occurrence; otherwise copy
one character.  The extra `Nat` argument is structural fuel: each step
consumes at least one input character, so `s.length` fuel is enough, and
the structural recursion keeps the function computable by the kernel. -/
def replaceAllGo (pat repl : List Char) : Nat → List Char → List Char
  | _, [] => []
  | 0, s => s
  | fuel + 1, c :: cs =>
    if pat ≠ [] ∧ pat.isPrefixOf (c :: cs) then
      repl ++ replaceAllGo pat repl fuel ((c :: cs).drop pat.length)
    else
      c :: replaceAllGo pat repl fuel cs

/-- Python `str.replace(pat, repl)`: replace every (left-to-right,
non-overlapping) occurrence of `pat` by `repl`; the replacement text is not
rescanned. -/
def replaceAll (pat repl s : List Char) : List Char :=
  replaceAllGo pat repl s.length s

/-- Literal sub-pattern: succeeds exactly when `lit` is a prefix. -/
def litP (lit s : List Char) : List (List Char) :=
  if lit.isPrefixOf s then [s.drop lit.length] else []

/-- Greedy `\s*`: remainders after consuming leading whitespace, longest
consumption first. -/
def wsP : List Char → List (List Char)
  | [] => [[]]
  | c :: cs => if isWs c then wsP cs ++ [c :: cs] else [c :: cs]

/-- Greedy single-character option such as `[:]?`: consuming alternative
first. -/
def optP (ch : Char) : List Char → List (List Char)
  | [] => [[]]
  | c :: cs => if c = ch then [cs, c :: cs] else [c :: cs]

/-- Lazy `(.*?)`: all (captured, remainder) splits, shortest capture first;
`.` never matches a newline. -/
def lazyP : List Char → List (List Char × List Char)
  | [] => [([], [])]
  | c :: cs =>
    ([], c :: cs) :: (if c = '\n' then [] else (lazyP cs).map fun p => (c :: p.1, p.2))

/-- The `$` anchor (no MULTILINE): end of input, or just before a final
newline. -/
def dollarP (s : List Char) : Bool :=
  s = [] || s = ['\n']

/-- The literal "본문" at the head of the pattern. -/
def bun : List Char := "본문".data

/-- The literal "찬송" inside the pattern. -/
def chan : List Char := "찬송".data

/-- Tail of the pattern after the second capture group: `[)]?$`, yielding
the pair of captures on success. -/
def tail2 (g1 g2 : List Char) (s13 : List Char) : List (List Char × List Char) :=
  (optP ')' s13).flatMap fun s14 =>
  if dollarP s14 then [(g1, g2)] else []

/-- Tail of the pattern after the first capture group:
`\s*[(]?찬송(?:가)?\s*[:]?\s*(.*?)[)]?$`. -/
def tail1 (g1 : List Char) (s5 : List Char) : List (List Char × List Char) :=
  (wsP s5).flatMap fun s6 =>
  (optP '(' s6).flatMap fun s7 =>
  (litP chan s7).flatMap fun s8 =>
  (optP '가' s8).flatMap fun s9 =>
  (wsP s9).flatMap fun s10 =>
  (optP ':' s10).flatMap fun s11 =>
  (wsP s11).flatMap fun s12 =>
  (lazyP s12).flatMap fun g2s =>
  tail2 g1 g2s.1 g2s.2

/-- The whole pattern anchored at the current position: successes in
backtracking order. -/
def matchAt (s : List Char) : List (List Char × List Char) :=
  (litP bun s).flatMap fun s1 =>
  (wsP s1).flatMap fun s2 =>
  (optP ':' s2).flatMap fun s3 =>
  (wsP s3).flatMap fun s4 =>
  (lazyP s4).flatMap fun g1s =>
  tail1 g1s.1 g1s.2

/-- All splits of `a ++ b` whose capture is a proper prefix of `a`, in the
order the lazy group enumerates them (shortest capture first). -/
def prefixSplits (a b : List Char) : List (List Char × List Char) :=
  (List.range a.length).map fun i => (a.take i, a.drop i ++ b)

/-- `re.search`: first success at the leftmost starting position. -/
def reSearch : List Char → Option (List Char × List Char)
  | [] => (matchAt []).head?
  | c :: cs =>
    match (matchAt (c :: cs)).head? with
    | some r => some r
    | none => reSearch cs

/-- Result of splitting the combined reference line (main.py:46-62). -/
structure RefInfo where
  bible_range : List Char
  hymn : List Char
deriving DecidableEq, Repr

/-- The reference splitter of `fetch_qt_data` (main.py:46-62): on a regex
match, the stripped capture groups; otherwise the raw string with the two
exact label forms removed and stripped, the hymn staying at its placeholder
`"-"`. -/
def splitReference (raw_info : List Char) : RefInfo :=
  match reSearch raw_info with
  | some g => { bible_range := strip g.1, hymn := strip g.2 }
  | none =>
    { bible_range := strip (replaceAll "본문:".data [] (replaceAll "본문 :".data [] raw_info)),
      hymn := "-".data }

/-- One direct child `div` of the body container, with its class list and
its `get_text(separator="\n", strip=True)` text. -/
structure Block where
  classes : List (List Char)
  text : List Char
deriving DecidableEq, Repr

/-- The exclusion test of main.py:84: the text contains "나의 적용" or
"기도하기" as a substring. -/
def isExcluded (t : List Char) : Bool :=
  decide ("나의 적용".data <:+: t) || decide ("기도하기".data <:+: t)

/-- The narrative-composition loop of main.py:69-93, with the accumulated
`commentary_text` and the `skip_section` flag. -/
def composeGo : Bool → List Char → List Block → List Char
  | _, acc, [] => acc
  | skip, acc, b :: bs =>
    if b.text = [] then composeGo skip acc bs
    else if "b_text".data ∈ b.classes then
      composeGo skip (acc ++ b.text ++ "\n\n".data) bs
    else if "g_text".data ∈ b.classes then
      if isExcluded b.text then composeGo true acc bs
      else composeGo false (acc ++ "📖 ".data ++ b.text ++ "\n".data) bs
    else if "text".data ∈ b.classes then
      if skip then composeGo skip acc bs
      else composeGo skip (acc ++ b.text ++ "\n\n".data) bs
    else composeGo skip acc bs

/-- The composed narrative for a list of child blocks (main.py:69-93). -/
def composeCommentary (blocks : List Block) : List Char :=
  composeGo false [] blocks

/-- Per-block rendering used by the specification-style description of the
narrative composition: what one block contributes given the current skip
state. -/
def renderBlock (skip : Bool) (b : Block) : List Char :=
  if b.text = [] then []
  else if "b_text".data ∈ b.classes then b.text ++ "\n\n".data
  else if "g_text".data ∈ b.classes then
    if isExcluded b.text then [] else "📖 ".data ++ b.text ++ "\n".data
  else if "text".data ∈ b.classes then
    if skip then [] else b.text ++ "\n\n".data
  else []

/-- Skip-state transition of the specification-style description: only a
subheading (`g_text`) block changes the state, to whether it is excluded. -/
def nextSkip (skip : Bool) (b : Block) : Bool :=
  if b.text = [] then skip
  else if "b_text".data ∈ b.classes then skip
  else if "g_text".data ∈ b.classes then isExcluded b.text
  else skip

/-- Specification-style narrative composition: concatenate, in document
order, each block's rendering under the running skip state. -/
def composeSpec : Bool → List Block → List Char
  | _, [] => []
  | skip, b :: bs => renderBlock skip b ++ composeSpec (nextSkip skip b) bs

/-- Python slice `s[:n]` for a possibly negative `n`. -/
def pyTake (s : List Char) (n : Int) : List Char :=
  if 0 ≤ n then s.take n.toNat else s.take (s.length - (-n).toNat)

/-- Python slice `s[n:]` for a possibly negative `n`. -/
def pyDrop (s : List Char) (n : Int) : List Char :=
  if 0 ≤ n then s.drop n.toNat else s.drop (s.length - (-n).toNat)

/-- The fixed upstream URL (main.py:16). -/
def QT_URL : List Char := "https://sum.su.or.kr:8888/bible/today?qt_ty=QT6".data

/-- The header of the first bubble (main.py:140). -/
def mkHeader (title bible_range hymn : List Char) : List Char :=
  "✝오늘의 QT(순)✝\n\n[".data ++ title ++ "]\n본문: ".data ++ bible_range
    ++ "\n찬송: ".data ++ hymn ++ "\n\n".data

/-- The truncation suffix of the second bubble (main.py:160). -/
def moreSuffix : List Char := "\n...(내용 더 있음)".data

/-- The fixed trailer bubble (main.py:169). -/
def footer_msg (url : List Char) : List Char :=
  "🔗 해설 전문 보기:\n".data ++ url
    ++ "\n\n🌟아침에 말씀으로 시작하며 하나님의 은혜 충만으로 하루를 시작해 보아요🌟".data

/-- The bubble list built by `get_qt` on the success path (main.py:134-174):
the header plus the first commentary slice, an optional second bubble with
the (possibly truncated) remainder, and the fixed trailer. -/
def bubbles (header commentary url : List Char) : List (List Char) :=
  let limit_len : Int := 950 - (header.length : Int)
  let part_1 := pyTake commentary limit_len
  let part_2 := pyDrop commentary limit_len
  ([header ++ part_1]
      ++ (if part_2 = [] then []
          else [if 1000 < part_2.length then part_2.take 950 ++ moreSuffix else part_2]))
    ++ [footer_msg url]

/-- The record returned by a successful `fetch_qt_data` (main.py:100-106). -/
structure QTData where
  title : List Char
  bible_range : List Char
  hymn : List Char
  commentary : List Char
  url : List Char
deriving DecidableEq, Repr

/-- The fixed apology bubble of the failure branch (main.py:126). -/
def apology : List Char := "죄송합니다. 큐티 정보를 가져오는데 실패했습니다.".data

/-- The reply envelope: HTTP status, output bubbles, quick replies (each a
messageText/action/label triple). -/
structure SkillResponse where
  status : Nat
  outputs : List (List Char)
  quickReplies : List (List Char × List Char × List Char)
deriving DecidableEq, Repr

/-- The `/qt` handler (main.py:112-190).  The incoming request body is a
parameter but, as in the source, is never inspected.  A failed fetch
(`fetch_qt_data` returning `None` after catching any exception,
main.py:108-110) is the `none` case; both branches answer with HTTP 200. -/
def get_qt (reqBody : List Char) (fetched : Option QTData) : SkillResponse :=
  match fetched with
  | none => { status := 200, outputs := [apology], quickReplies := [] }
  | some d =>
    { status := 200,
      outputs := bubbles (mkHeader d.title d.bible_range d.hymn) d.commentary d.url,
      quickReplies := [("오늘의 QT".data, "message".data, "🔄 다시보기".data)] }

/-! ### Helper lemmas -/

theorem composeGo_eq_append (skip : Bool) (acc : List Char) (bs : List Block) :
    composeGo skip acc bs = acc ++ composeSpec skip bs := by
  induction bs generalizing skip acc with
  | nil => simp [composeGo, composeSpec]
  | cons b bs ih =>
    simp only [composeGo, composeSpec, renderBlock, nextSkip]
    split_ifs <;> simp [ih, List.append_assoc, *]

theorem pyTake_nil (n : Int) : pyTake [] n = [] := by
  unfold pyTake
  split <;> simp

theorem pyDrop_nil (n : Int) : pyDrop [] n = [] := by
  unfold pyDrop
  split <;> simp

theorem bubbles_shape (h c url : List Char) :
    bubbles h c url =
      (h ++ pyTake c (950 - (h.length : Int)))
        :: ((if pyDrop c (950 - (h.length : Int)) = [] then []
             else [if 1000 < (pyDrop c (950 - (h.length : Int))).length
                   then (pyDrop c (950 - (h.length : Int))).take 950 ++ moreSuffix
                   else pyDrop c (950 - (h.length : Int))])
          ++ [footer_msg url]) := by
  simp [bubbles]

/-! ### Generic list-of-successes lemmas -/

theorem flatMap_starts2 {α β : Type*} (a : α) {l : List α} {f : α → List β} {b : β}
    (hl : ∃ t, l = a :: t) (hf : ∃ u, f a = b :: u) :
    ∃ v, l.flatMap f = b :: v := by
  obtain ⟨t, ht⟩ := hl
  obtain ⟨u, hu⟩ := hf
  subst ht
  exact ⟨u ++ t.flatMap f, by rw [List.flatMap_cons, hu]; rfl⟩

theorem flatMap_skip {α β : Type*} (l₁ l₂ : List α) {l : List α} {f : α → List β} {b : β}
    (hl : l = l₁ ++ l₂) (h1 : ∀ x ∈ l₁, f x = []) (h2 : ∃ v, l₂.flatMap f = b :: v) :
    ∃ v, l.flatMap f = b :: v := by
  obtain ⟨v, hv⟩ := h2
  subst hl
  exact ⟨v, by rw [List.flatMap_append, List.flatMap_eq_nil_iff.mpr h1, List.nil_append, hv]⟩

/-! ### Sub-pattern lemmas -/

theorem litP_self (lit r : List Char) : litP lit (lit ++ r) = [r] := by
  unfold litP
  rw [if_pos (List.isPrefixOf_iff_prefix.mpr (List.prefix_append lit r)), List.drop_left]

theorem litP_empty {lit s : List Char} (h : ¬ lit <+: s) : litP lit s = [] := by
  unfold litP
  rw [if_neg fun hc => h (List.isPrefixOf_iff_prefix.mp hc)]

theorem wsP_starts {w r : List Char} (hw : ∀ c ∈ w, isWs c = true)
    (hr : r = [] ∨ isWs r.headI = false) :
    ∃ t, wsP (w ++ r) = r :: t := by
  induction w with
  | nil =>
    rcases hr with hr | hr
    · subst hr; exact ⟨[], rfl⟩
    · cases r with
      | nil => exact ⟨[], rfl⟩
      | cons c cs =>
        refine ⟨[], ?_⟩
        show wsP (c :: cs) = [c :: cs]
        have hc : isWs c = false := hr
        unfold wsP
        rw [if_neg (by simp [hc])]
  | cons a w ih =>
    have ha : isWs a = true := hw a (by simp)
    obtain ⟨t, ht⟩ := ih fun c hc => hw c (by simp [hc])
    refine ⟨t ++ [a :: (w ++ r)], ?_⟩
    show wsP (a :: (w ++ r)) = r :: (t ++ [a :: (w ++ r)])
    unfold wsP
    rw [if_pos ha, ht]
    rfl

theorem wsP_mem {s u : List Char} (hu : u ∈ wsP s) :
    ∃ p, s = p ++ u ∧ ∀ c ∈ p, isWs c = true := by
  induction s with
  | nil =>
    simp only [wsP, List.mem_singleton] at hu
    exact ⟨[], by simp [hu], by simp⟩
  | cons c cs ih =>
    unfold wsP at hu
    by_cases hc : isWs c = true
    · rw [if_pos hc] at hu
      rcases List.mem_append.mp hu with h1 | h2
      · obtain ⟨p, hp, hpw⟩ := ih h1
        refine ⟨c :: p, by simp [hp], ?_⟩
        intro d hd
        rcases List.mem_cons.mp hd with h | h
        · subst h; exact hc
        · exact hpw d h
      · simp only [List.mem_singleton] at h2
        exact ⟨[], by simp [h2], by simp⟩
    · rw [if_neg hc] at hu
      simp only [List.mem_singleton] at hu
      exact ⟨[], by simp [hu], by simp⟩

theorem optP_cons_eq {ch c : Char} {cs : List Char} (h : c = ch) :
    optP ch (c :: cs) = [cs, c :: cs] := by
  simp only [optP]
  rw [if_pos h]

theorem optP_cons_ne {ch c : Char} {cs : List Char} (h : ¬ c = ch) :
    optP ch (c :: cs) = [c :: cs] := by
  simp only [optP]
  rw [if_neg h]

theorem optP_ne_head {ch : Char} {s : List Char} (hs : s ≠ []) (h : ¬ s.headI = ch) :
    optP ch s = [s] := by
  cases s with
  | nil => exact absurd rfl hs
  | cons c cs => exact optP_cons_ne h

theorem optP_mem {ch : Char} {s u : List Char} (hu : u ∈ optP ch s) :
    u = s ∨ s = ch :: u := by
  cases s with
  | nil =>
    simp only [optP, List.mem_singleton] at hu
    exact Or.inl hu
  | cons c cs =>
    simp only [optP] at hu
    by_cases h : c = ch
    · rw [if_pos h] at hu
      rcases List.mem_pair.mp hu with h1 | h1
      · right; rw [h1, h]
      · exact Or.inl h1
    · rw [if_neg h] at hu
      simp only [List.mem_singleton] at hu
      exact Or.inl hu

theorem lazyP_head (s : List Char) : ∃ t, lazyP s = ([], s) :: t := by
  cases s with
  | nil => exact ⟨[], rfl⟩
  | cons c cs => exact ⟨_, rfl⟩

theorem prefixSplits_cons (c : Char) (a b : List Char) :
    prefixSplits (c :: a) b
      = ([], c :: (a ++ b)) :: ((prefixSplits a b).map fun p => (c :: p.1, p.2)) := by
  unfold prefixSplits
  rw [List.length_cons, List.range_succ_eq_map, List.map_cons, List.map_map, List.map_map]
  refine congrArg₂ _ rfl ?_
  refine List.map_congr_left fun i _ => ?_
  simp [Function.comp, List.take_succ_cons, List.drop_succ_cons]

theorem prefixSplits_mem {a b : List Char} {x : List Char × List Char}
    (hx : x ∈ prefixSplits a b) :
    ∃ i, i < a.length ∧ x = (a.take i, a.drop i ++ b) := by
  unfold prefixSplits at hx
  obtain ⟨i, hi, hxi⟩ := List.mem_map.mp hx
  exact ⟨i, List.mem_range.mp hi, hxi.symm⟩

theorem lazyP_append {a : List Char} (b : List Char) (ha : '\n' ∉ a) :
    lazyP (a ++ b) = prefixSplits a b ++ ((lazyP b).map fun p => (a ++ p.1, p.2)) := by
  induction a with
  | nil =>
    simp [prefixSplits]
  | cons c a ih =>
    have hc : ¬ c = '\n' := fun h => ha (by simp [h])
    have ha2 : '\n' ∉ a := fun h => ha (by simp [h])
    have hstep : lazyP (c :: (a ++ b))
        = ([], c :: (a ++ b)) :: ((lazyP (a ++ b)).map fun p => (c :: p.1, p.2)) := by
      simp only [lazyP]
      rw [if_neg hc]
    show lazyP (c :: (a ++ b)) = _
    rw [hstep, ih ha2, prefixSplits_cons]
    simp only [List.cons_append, List.map_append, List.map_map, Function.comp_def]

theorem headI_append {l r : List Char} (h : l ≠ []) : (l ++ r).headI = l.headI := by
  cases l with
  | nil => exact absurd rfl h
  | cons c cs => rfl

theorem getLast?_drop_eq (X : List Char) (i : Nat) (h : X.drop i ≠ []) :
    X.getLast? = (X.drop i).getLast? := by
  conv_lhs => rw [← List.take_append_drop i X]
  rw [List.getLast?_append, List.getLast?_eq_getLast _ h, Option.or_some]

theorem getLastD_of_drop {X l : List Char} {i : Nat} {c : Char}
    (hd : X.drop i = l ++ [c]) : X.getLastD 'a' = c := by
  have hne : X.drop i ≠ [] := by
    rw [hd]
    simp
  rw [List.getLastD_eq_getLast?, getLast?_drop_eq X i hne, hd, List.getLast?_concat]
  rfl

theorem strip_eq_self {X : List Char} (hh : isWs X.headI = false)
    (hl : isWs (X.getLastD 'a') = false) : strip X = X := by
  unfold strip
  have h1 : X.dropWhile isWs = X := by
    cases X with
    | nil => rfl
    | cons c cs =>
      have hh2 : isWs c = false := hh
      rw [List.dropWhile_cons, if_neg (by simp [hh2])]
  rw [h1]
  have h2 : X.reverse.dropWhile isWs = X.reverse := by
    cases hxr : X.reverse with
    | nil => rfl
    | cons c cs =>
      have hc : X.getLast? = some c := by
        rw [← List.head?_reverse, hxr]
        rfl
      have hc2 : X.getLastD 'a' = c := by
        rw [List.getLastD_eq_getLast?, hc]
        rfl
      have hcw : isWs c = false := by rw [← hc2]; exact hl
      rw [List.dropWhile_cons, if_neg (by simp [hcw])]
  rw [h2, List.reverse_reverse]

/-! ### Stage lemmas for the shape theorem -/

theorem wsP_self {r : List Char} (hr : isWs r.headI = false) : ∃ t, wsP r = r :: t := by
  cases r with
  | nil => exact ⟨[], rfl⟩
  | cons c cs =>
    refine ⟨[], ?_⟩
    show wsP (c :: cs) = [c :: cs]
    have hc : isWs c = false := hr
    unfold wsP
    rw [if_neg (by simp [hc])]

theorem tail2_at_end (g1 g2 p2 : List Char) (hp2 : p2 = [] ∨ p2 = [')']) :
    ∃ v, tail2 g1 g2 p2 = (g1, g2) :: v := by
  rcases hp2 with h | h <;> subst h
  · exact ⟨[], rfl⟩
  · exact ⟨[], rfl⟩

theorem tail2_empty {s13 : List Char} (g1 g2 : List Char)
    (h1 : s13 ≠ []) (h2 : s13 ≠ ['\n'])
    (h3 : s13.headI = ')' → s13.tail ≠ [] ∧ s13.tail ≠ ['\n']) :
    tail2 g1 g2 s13 = [] := by
  cases s13 with
  | nil => exact absurd rfl h1
  | cons c cs =>
    unfold tail2
    have hd2 : dollarP (c :: cs) = false := by
      unfold dollarP
      simp [h2]
    by_cases hc : c = ')'
    · obtain ⟨ht1, ht2⟩ := h3 hc
      have ht1v : cs ≠ [] := ht1
      have ht2v : cs ≠ ['\n'] := ht2
      rw [optP_cons_eq hc]
      have hd1 : dollarP cs = false := by
        unfold dollarP
        simp [ht1v, ht2v]
      simp [hd1, hd2]
    · rw [optP_cons_ne hc]
      simp [hd2]

theorem lazy_tail2_starts (g1 Y p2 : List Char) (hY : Y ≠ [])
    (hYnl : '\n' ∉ Y)
    (hYl : isWs (Y.getLastD 'a') = false)
    (hYp2 : p2 = [] → Y.getLastD 'a' ≠ ')')
    (hp2 : p2 = [] ∨ p2 = [')']) :
    ∃ v, ((lazyP (Y ++ p2)).flatMap fun g2s => tail2 g1 g2s.1 g2s.2) = (g1, Y) :: v := by
  refine flatMap_skip (prefixSplits Y p2) ((lazyP p2).map fun p => (Y ++ p.1, p.2))
      (lazyP_append p2 hYnl) ?_ ?_
  · intro x hx
    obtain ⟨i, hi, hxe⟩ := prefixSplits_mem hx
    subst hxe
    show tail2 g1 (Y.take i) (Y.drop i ++ p2) = []
    have hdne : Y.drop i ≠ [] := by
      rw [Ne, List.drop_eq_nil_iff]
      omega
    apply tail2_empty
    · intro h0
      exact hdne (List.append_eq_nil.mp h0).1
    · intro h0
      rcases hp2 with hp | hp <;> subst hp
      · rw [List.append_nil] at h0
        have hlast : Y.getLastD 'a' = '\n' :=
          getLastD_of_drop (show Y.drop i = [] ++ ['\n'] by simpa using h0)
        rw [hlast] at hYl
        exact absurd hYl (by decide)
      · have hlen : (Y.drop i).length + 1 = 1 := by
          have := congrArg List.length h0
          simpa using this
        exact hdne (List.eq_nil_of_length_eq_zero (by omega))
    · intro hhead
      obtain ⟨c, cs, hcc⟩ : ∃ c cs, Y.drop i = c :: cs := by
        cases hk : Y.drop i with
        | nil => exact absurd hk hdne
        | cons c cs => exact ⟨c, cs, rfl⟩
      have hc : c = ')' := by
        rw [hcc] at hhead
        exact hhead
      have hcs : cs = Y.drop (i + 1) := by
        rw [← List.tail_drop, hcc]
        rfl
      constructor
      · rw [hcc]
        show cs ++ p2 ≠ []
        intro h0
        obtain ⟨hcs0, hp20⟩ := List.append_eq_nil.mp h0
        subst hcs0
        have hlast : Y.getLastD 'a' = c :=
          getLastD_of_drop (show Y.drop i = [] ++ [c] by simpa using hcc)
        exact (hYp2 hp20) (hlast.trans hc)
      · rw [hcc]
        show cs ++ p2 ≠ ['\n']
        intro h0
        rcases hp2 with hp | hp <;> subst hp
        · rw [List.append_nil] at h0
          have hlast : Y.getLastD 'a' = '\n' :=
            getLastD_of_drop (show Y.drop (i + 1) = [] ++ ['\n'] by rw [← hcs, h0]; rfl)
          rw [hlast] at hYl
          exact absurd hYl (by decide)
        · have hlen := congrArg List.length h0
          rw [List.length_append] at hlen
          simp at hlen
          subst hlen
          simp at h0
  · obtain ⟨t0, ht0⟩ := lazyP_head p2
    refine flatMap_starts2 (Y, p2) ⟨t0.map fun p => (Y ++ p.1, p.2), ?_⟩ ?_
    · rw [ht0, List.map_cons, List.append_nil]
    · show ∃ u, tail2 g1 Y p2 = (g1, Y) :: u
      exact tail2_at_end g1 Y p2 hp2

theorem headI_ws_chain {w4 c2 w5 Y p2 : List Char}
    (hw4 : ∀ c ∈ w4, isWs c = true) (hc2 : c2 = [] ∨ c2 = [':'])
    (hw5 : ∀ c ∈ w5, isWs c = true) (hY : Y ≠ []) :
    (w4 ++ (c2 ++ (w5 ++ (Y ++ p2)))) ≠ [] ∧
      (isWs (w4 ++ (c2 ++ (w5 ++ (Y ++ p2)))).headI = true ∨
       (w4 ++ (c2 ++ (w5 ++ (Y ++ p2)))).headI = ':' ∨
       (w4 ++ (c2 ++ (w5 ++ (Y ++ p2)))).headI = Y.headI) := by
  cases w4 with
  | cons a w => exact ⟨by simp, Or.inl (hw4 a (by simp))⟩
  | nil =>
    rcases hc2 with h | h <;> subst h
    · cases w5 with
      | cons a w => exact ⟨by simp, Or.inl (hw5 a (by simp))⟩
      | nil =>
        refine ⟨?_, Or.inr (Or.inr ?_)⟩
        · show Y ++ p2 ≠ []
          intro h0
          exact hY (List.append_eq_nil.mp h0).1
        · show (Y ++ p2).headI = Y.headI
          exact headI_append hY
    · exact ⟨by simp, Or.inr (Or.inl rfl)⟩

theorem after_ga (g1 w4 c2 w5 Y p2 : List Char)
    (hw4 : ∀ c ∈ w4, isWs c = true) (hc2 : c2 = [] ∨ c2 = [':'])
    (hw5 : ∀ c ∈ w5, isWs c = true)
    (hY : Y ≠ []) (hYh1 : isWs Y.headI = false) (hYh2 : Y.headI ≠ ':')
    (hYnl : '\n' ∉ Y) (hYl : isWs (Y.getLastD 'a') = false)
    (hYp2 : p2 = [] → Y.getLastD 'a' ≠ ')') (hp2 : p2 = [] ∨ p2 = [')']) :
    ∃ v, ((wsP (w4 ++ (c2 ++ (w5 ++ (Y ++ p2))))).flatMap fun s10 =>
          (optP ':' s10).flatMap fun s11 =>
          (wsP s11).flatMap fun s12 =>
          (lazyP s12).flatMap fun g2s =>
          tail2 g1 g2s.1 g2s.2) = (g1, Y) :: v := by
  have hYp2ne : Y ++ p2 ≠ [] := fun h0 => hY (List.append_eq_nil.mp h0).1
  have hYp2hd : isWs (Y ++ p2).headI = false := by
    rw [headI_append hY]
    exact hYh1
  have hlazy : ∃ v, ((lazyP (Y ++ p2)).flatMap fun g2s => tail2 g1 g2s.1 g2s.2)
      = (g1, Y) :: v := lazy_tail2_starts g1 Y p2 hY hYnl hYl hYp2 hp2
  rcases hc2 with h | h <;> subst h
  · have hassoc : w4 ++ (([] : List Char) ++ (w5 ++ (Y ++ p2)))
        = (w4 ++ w5) ++ (Y ++ p2) := by
      simp [List.append_assoc]
    rw [hassoc]
    refine flatMap_starts2 (Y ++ p2) ?_ ?_
    · refine wsP_starts ?_ (Or.inr hYp2hd)
      intro c hc
      rcases List.mem_append.mp hc with h1 | h1
      exacts [hw4 c h1, hw5 c h1]
    · refine flatMap_starts2 (Y ++ p2) ⟨[], optP_ne_head hYp2ne ?_⟩ ?_
      · rw [headI_append hY]
        exact hYh2
      · refine flatMap_starts2 (Y ++ p2) ?_ ?_
        · exact wsP_self hYp2hd
        · exact hlazy
  · refine flatMap_starts2 ([':'] ++ (w5 ++ (Y ++ p2))) ?_ ?_
    · exact wsP_starts hw4 (Or.inr rfl)
    refine flatMap_starts2 (w5 ++ (Y ++ p2)) ⟨[':' :: (w5 ++ (Y ++ p2))], ?_⟩ ?_
    · show optP ':' (':' :: (w5 ++ (Y ++ p2)))
          = (w5 ++ (Y ++ p2)) :: [':' :: (w5 ++ (Y ++ p2))]
      exact optP_cons_eq rfl
    · refine flatMap_starts2 (Y ++ p2) ?_ ?_
      · exact wsP_starts hw5 (Or.inr hYp2hd)
      · exact hlazy

theorem mid_starts (g1 gOpt w4 c2 w5 Y p2 : List Char)
    (hg : gOpt = [] ∨ gOpt = ['가'])
    (hw4 : ∀ c ∈ w4, isWs c = true) (hc2 : c2 = [] ∨ c2 = [':'])
    (hw5 : ∀ c ∈ w5, isWs c = true)
    (hY : Y ≠ []) (hYh1 : isWs Y.headI = false) (hYh2 : Y.headI ≠ ':')
    (hYh3 : Y.headI ≠ '가')
    (hYnl : '\n' ∉ Y) (hYl : isWs (Y.getLastD 'a') = false)
    (hYp2 : p2 = [] → Y.getLastD 'a' ≠ ')') (hp2 : p2 = [] ∨ p2 = [')']) :
    ∃ v, ((optP '가' (gOpt ++ (w4 ++ (c2 ++ (w5 ++ (Y ++ p2)))))).flatMap fun s9 =>
          (wsP s9).flatMap fun s10 =>
          (optP ':' s10).flatMap fun s11 =>
          (wsP s11).flatMap fun s12 =>
          (lazyP s12).flatMap fun g2s =>
          tail2 g1 g2s.1 g2s.2) = (g1, Y) :: v := by
  have hafter := after_ga g1 w4 c2 w5 Y p2 hw4 hc2 hw5 hY hYh1 hYh2 hYnl hYl hYp2 hp2
  rcases hg with h | h <;> subst h
  · obtain ⟨hMne, hMhd⟩ := headI_ws_chain hw4 hc2 hw5 hY
    have hMga : ¬ (w4 ++ (c2 ++ (w5 ++ (Y ++ p2)))).headI = '가' := by
      rcases hMhd with h1 | h1 | h1
      · intro h0
        rw [h0] at h1
        exact absurd h1 (by decide)
      · intro h0
        rw [h0] at h1
        exact absurd h1 (by decide)
      · intro h0
        rw [h0] at h1
        exact hYh3 h1.symm
    refine flatMap_starts2 (w4 ++ (c2 ++ (w5 ++ (Y ++ p2)))) ⟨[], ?_⟩ hafter
    show optP '가' (w4 ++ (c2 ++ (w5 ++ (Y ++ p2))))
        = [w4 ++ (c2 ++ (w5 ++ (Y ++ p2)))]
    exact optP_ne_head hMne hMga
  · refine flatMap_starts2 (w4 ++ (c2 ++ (w5 ++ (Y ++ p2))))
        ⟨['가' :: (w4 ++ (c2 ++ (w5 ++ (Y ++ p2))))], ?_⟩ hafter
    show optP '가' ('가' :: (w4 ++ (c2 ++ (w5 ++ (Y ++ p2)))))
        = (w4 ++ (c2 ++ (w5 ++ (Y ++ p2))))
            :: ['가' :: (w4 ++ (c2 ++ (w5 ++ (Y ++ p2))))]
    exact optP_cons_eq rfl

theorem tail1_starts (g1 w3 p1 gOpt w4 c2 w5 Y p2 : List Char)
    (hw3 : ∀ c ∈ w3, isWs c = true) (hp1 : p1 = [] ∨ p1 = ['('])
    (hg : gOpt = [] ∨ gOpt = ['가'])
    (hw4 : ∀ c ∈ w4, isWs c = true) (hc2 : c2 = [] ∨ c2 = [':'])
    (hw5 : ∀ c ∈ w5, isWs c = true)
    (hY : Y ≠ []) (hYh1 : isWs Y.headI = false) (hYh2 : Y.headI ≠ ':')
    (hYh3 : Y.headI ≠ '가')
    (hYnl : '\n' ∉ Y) (hYl : isWs (Y.getLastD 'a') = false)
    (hYp2 : p2 = [] → Y.getLastD 'a' ≠ ')') (hp2 : p2 = [] ∨ p2 = [')']) :
    ∃ v, tail1 g1
        (w3 ++ (p1 ++ (chan ++ (gOpt ++ (w4 ++ (c2 ++ (w5 ++ (Y ++ p2))))))))
      = (g1, Y) :: v := by
  have hmid := mid_starts g1 gOpt w4 c2 w5 Y p2 hg hw4 hc2 hw5 hY hYh1 hYh2 hYh3 hYnl
    hYl hYp2 hp2
  unfold tail1
  rcases hp1 with h | h <;> subst h
  · refine flatMap_starts2 (chan ++ (gOpt ++ (w4 ++ (c2 ++ (w5 ++ (Y ++ p2)))))) ?_ ?_
    · exact wsP_starts hw3 (Or.inr rfl)
    refine flatMap_starts2 (chan ++ (gOpt ++ (w4 ++ (c2 ++ (w5 ++ (Y ++ p2)))))) ⟨[], ?_⟩ ?_
    · show optP '(' ('찬' :: ('송' :: (gOpt ++ (w4 ++ (c2 ++ (w5 ++ (Y ++ p2)))))))
          = ['찬' :: ('송' :: (gOpt ++ (w4 ++ (c2 ++ (w5 ++ (Y ++ p2))))))]
      exact optP_cons_ne (by decide)
    · refine flatMap_starts2 (gOpt ++ (w4 ++ (c2 ++ (w5 ++ (Y ++ p2)))))
          ⟨[], litP_self chan _⟩ ?_
      exact hmid
  · refine flatMap_starts2
        (['('] ++ (chan ++ (gOpt ++ (w4 ++ (c2 ++ (w5 ++ (Y ++ p2))))))) ?_ ?_
    · exact wsP_starts hw3 (Or.inr rfl)
    refine flatMap_starts2 (chan ++ (gOpt ++ (w4 ++ (c2 ++ (w5 ++ (Y ++ p2))))))
        ⟨['(' :: (chan ++ (gOpt ++ (w4 ++ (c2 ++ (w5 ++ (Y ++ p2))))))], ?_⟩ ?_
    · show optP '(' ('(' :: (chan ++ (gOpt ++ (w4 ++ (c2 ++ (w5 ++ (Y ++ p2)))))))
          = (chan ++ (gOpt ++ (w4 ++ (c2 ++ (w5 ++ (Y ++ p2))))))
              :: ['(' :: (chan ++ (gOpt ++ (w4 ++ (c2 ++ (w5 ++ (Y ++ p2))))))]
      exact optP_cons_eq rfl
    · refine flatMap_starts2 (gOpt ++ (w4 ++ (c2 ++ (w5 ++ (Y ++ p2)))))
          ⟨[], litP_self chan _⟩ ?_
      exact hmid

theorem T_head_ne_song {w3 p1 T2 : List Char} (hw3 : ∀ c ∈ w3, isWs c = true)
    (hp1 : p1 = [] ∨ p1 = ['(']) :
    (w3 ++ (p1 ++ (chan ++ T2))).headI ≠ '송' := by
  cases w3 with
  | cons a w =>
    intro h0
    have ha := hw3 a (by simp)
    have h0a : a = '송' := h0
    rw [h0a] at ha
    exact absurd ha (by decide)
  | nil =>
    rcases hp1 with h | h <;> subst h
    · intro h0
      have : '찬' = '송' := h0
      exact absurd this (by decide)
    · intro h0
      have : '(' = '송' := h0
      exact absurd this (by decide)

theorem chan_not_prefix_suffix {X T : List Char} {m : Nat}
    (hm : m < X.length) (hXinf : ¬ chan <:+: X) (hT : T.headI ≠ '송') :
    ¬ chan <+: (X.drop m ++ T) := by
  intro hpre
  by_cases h2 : 2 ≤ (X.drop m).length
  · have h1 : chan <+: X.drop m :=
      List.prefix_of_prefix_length_le hpre (List.prefix_append _ _)
        (by rw [show chan.length = 2 from rfl]; exact h2)
    exact hXinf (List.IsInfix.trans h1.isInfix (List.drop_suffix m X).isInfix)
  · have hlen : (X.drop m).length = 1 := by
      rw [List.length_drop] at h2 ⊢
      omega
    obtain ⟨c, hc⟩ := List.length_eq_one.mp hlen
    rw [hc] at hpre
    obtain ⟨r, hr⟩ := hpre
    have hr2 : '찬' :: ('송' :: r) = c :: T := hr
    have hsong : T.headI = '송' := by
      injection hr2 with ha hb
      rw [← hb]
      rfl
    exact hT hsong

theorem tail1_empty (g1 : List Char) {s5 : List Char}
    (h : ∀ u ∈ wsP s5, ∀ u7 ∈ optP '(' u, ¬ chan <+: u7) :
    tail1 g1 s5 = [] := by
  unfold tail1
  apply List.flatMap_eq_nil_iff.mpr
  intro u hu
  apply List.flatMap_eq_nil_iff.mpr
  intro u7 h7
  rw [litP_empty (h u hu u7 h7)]
  rfl

theorem tail1_empty_at (g1 : List Char) {X T : List Char} {i : Nat}
    (hi : i < X.length) (hXinf : ¬ chan <:+: X)
    (hXl1 : isWs (X.getLastD 'a') = false) (hXl2 : X.getLastD 'a' ≠ '(')
    (hT : T.headI ≠ '송') :
    tail1 g1 (X.drop i ++ T) = [] := by
  apply tail1_empty
  intro u hu u7 h7
  obtain ⟨p, hp, hpw⟩ := wsP_mem hu
  have hdne : X.drop i ≠ [] := by
    rw [Ne, List.drop_eq_nil_iff]
    omega
  have hplen : p.length < (X.drop i).length := by
    by_contra hge
    push_neg at hge
    have hdp : X.drop i <+: p :=
      List.prefix_of_prefix_length_le (List.prefix_append _ _) ⟨u, hp.symm⟩ hge
    have hmem : (X.drop i).getLast hdne ∈ p := hdp.sublist.subset (List.getLast_mem hdne)
    have hws := hpw _ hmem
    have hlast : X.getLastD 'a' = (X.drop i).getLast hdne := by
      rw [List.getLastD_eq_getLast?, getLast?_drop_eq X i hdne,
        List.getLast?_eq_getLast _ hdne]
      rfl
    rw [← hlast] at hws
    exact absurd (hws.symm.trans hXl1) (by decide)
  have hppre : p <+: X.drop i :=
    List.prefix_of_prefix_length_le ⟨u, hp.symm⟩ (List.prefix_append _ _) (le_of_lt hplen)
  obtain ⟨rest, hrest⟩ := hppre
  have hu_eq : u = rest ++ T := by
    have h1 : p ++ u = p ++ (rest ++ T) := by
      rw [← List.append_assoc, hrest, hp]
    exact List.append_cancel_left h1
  have hrest_eq : rest = X.drop (i + p.length) := by
    have h2 : rest = (X.drop i).drop p.length := by
      rw [← hrest, List.drop_left]
    rw [h2, List.drop_drop]
  have hm2 : i + p.length < X.length := by
    have h3 := hplen
    rw [List.length_drop] at h3
    omega
  have hrne : rest ≠ [] := by
    rw [hrest_eq, Ne, List.drop_eq_nil_iff]
    omega
  rcases optP_mem h7 with hcase | hcase
  · rw [hcase, hu_eq, hrest_eq]
    exact chan_not_prefix_suffix hm2 hXinf hT
  · obtain ⟨r0, rest2, hr02⟩ : ∃ r0 rest2, rest = r0 :: rest2 := by
      cases hrr : rest with
      | nil => exact absurd hrr hrne
      | cons a b => exact ⟨a, b, rfl⟩
    have hu2 : u = r0 :: (rest2 ++ T) := by
      rw [hu_eq, hr02]
      rfl
    rw [hu2] at hcase
    injection hcase with hr0 hu7
    cases hrr2 : rest2 with
    | nil =>
      have hdrop1 : X.drop (i + p.length) = [] ++ [r0] := by
        rw [← hrest_eq, hr02, hrr2]
        rfl
      have hl := getLastD_of_drop hdrop1
      rw [hr0] at hl
      exact absurd hl hXl2
    | cons a b =>
      have hrest2 : rest2 = X.drop (i + p.length + 1) := by
        rw [← List.tail_drop, ← hrest_eq, hr02]
        rfl
      have hm3 : i + p.length + 1 < X.length := by
        have hne2 : rest2 ≠ [] := by
          rw [hrr2]
          simp
        rw [hrest2, Ne, List.drop_eq_nil_iff] at hne2
        omega
      rw [← hu7, hrest2]
      exact chan_not_prefix_suffix hm3 hXinf hT

theorem reSearch_of_head {s : List Char} {r : List Char × List Char}
    (h : (matchAt s).head? = some r) : reSearch s = some r := by
  cases s with
  | nil =>
    simp only [reSearch]
    exact h
  | cons c cs =>
    simp only [reSearch]
    rw [h]

/-! ### Claim theorems -/

/-- Claim C1 (confirmed): for every reference-region string of the expected
shape — the literal label "본문", optional colon, the passage range `X`,
an optional opening parenthesis, the literal "찬송" optionally followed by
"가", an optional colon, the hymn `Y`, an optional closing parenthesis,
with arbitrary whitespace runs `w1..w5` between the parts — the splitter
returns `bible_range = X` and `hymn = Y` (both already stripped), with no
label or parenthesis residue.  `X` and `Y` are arbitrary stripped strings
subject to the disambiguation conditions the shape requires: `X` does not
contain the hymn label, does not start with a colon, does not end with an
opening parenthesis, and has no newline; `Y` does not start with a colon,
with "가", or end with an unmatched closing parenthesis, and has no
newline. -/
theorem splitReference_shape
    (w1 w2 w3 w4 w5 X Y c1 p1 gOpt c2 p2 : List Char)
    (hw1 : ∀ c ∈ w1, isWs c = true) (hw2 : ∀ c ∈ w2, isWs c = true)
    (hw3 : ∀ c ∈ w3, isWs c = true) (hw4 : ∀ c ∈ w4, isWs c = true)
    (hw5 : ∀ c ∈ w5, isWs c = true)
    (hc1 : c1 = [] ∨ c1 = [':']) (hp1 : p1 = [] ∨ p1 = ['('])
    (hg : gOpt = [] ∨ gOpt = ['가']) (hc2 : c2 = [] ∨ c2 = [':'])
    (hp2 : p2 = [] ∨ p2 = [')'])
    (hX : X ≠ []) (hXh1 : isWs X.headI = false) (hXh2 : X.headI ≠ ':')
    (hXl1 : isWs (X.getLastD 'a') = false) (hXl2 : X.getLastD 'a' ≠ '(')
    (hXnl : '\n' ∉ X) (hXinf : ¬ chan <:+: X)
    (hY : Y ≠ []) (hYh1 : isWs Y.headI = false) (hYh2 : Y.headI ≠ ':')
    (hYh3 : Y.headI ≠ '가') (hYnl : '\n' ∉ Y)
    (hYl : isWs (Y.getLastD 'a') = false)
    (hYp2 : p2 = [] → Y.getLastD 'a' ≠ ')') :
    splitReference
        (bun ++ (w1 ++ (c1 ++ (w2 ++ (X ++ (w3 ++ (p1 ++ (chan ++ (gOpt ++
          (w4 ++ (c2 ++ (w5 ++ (Y ++ p2)))))))))))))
      = { bible_range := X, hymn := Y } := by
  have hT : (w3 ++ (p1 ++ (chan ++ (gOpt ++ (w4 ++ (c2 ++ (w5 ++ (Y ++ p2)))))))).headI
      ≠ '송' := T_head_ne_song hw3 hp1
  have hXT : ∃ v,
      ((lazyP (X ++ (w3 ++ (p1 ++ (chan ++ (gOpt ++ (w4 ++ (c2 ++ (w5 ++
          (Y ++ p2)))))))))).flatMap fun g1s => tail1 g1s.1 g1s.2)
        = (X, Y) :: v := by
    refine flatMap_skip
        (prefixSplits X (w3 ++ (p1 ++ (chan ++ (gOpt ++ (w4 ++ (c2 ++ (w5 ++ (Y ++ p2)))))))))
        ((lazyP (w3 ++ (p1 ++ (chan ++ (gOpt ++ (w4 ++ (c2 ++ (w5 ++ (Y ++ p2))))))))).map
          fun p => (X ++ p.1, p.2))
        (lazyP_append _ hXnl) ?_ ?_
    · intro x hx
      obtain ⟨i, hi, hxe⟩ := prefixSplits_mem hx
      subst hxe
      show tail1 (X.take i)
          (X.drop i ++ (w3 ++ (p1 ++ (chan ++ (gOpt ++ (w4 ++ (c2 ++ (w5 ++ (Y ++ p2)))))))))
        = []
      exact tail1_empty_at _ hi hXinf hXl1 hXl2 hT
    · obtain ⟨t0, ht0⟩ :=
        lazyP_head (w3 ++ (p1 ++ (chan ++ (gOpt ++ (w4 ++ (c2 ++ (w5 ++ (Y ++ p2))))))))
      refine flatMap_starts2
          (X, w3 ++ (p1 ++ (chan ++ (gOpt ++ (w4 ++ (c2 ++ (w5 ++ (Y ++ p2))))))))
          ⟨t0.map fun p => (X ++ p.1, p.2), ?_⟩ ?_
      · rw [ht0, List.map_cons, List.append_nil]
      · show ∃ u, tail1 X
            (w3 ++ (p1 ++ (chan ++ (gOpt ++ (w4 ++ (c2 ++ (w5 ++ (Y ++ p2))))))))
          = (X, Y) :: u
        exact tail1_starts X w3 p1 gOpt w4 c2 w5 Y p2 hw3 hp1 hg hw4 hc2 hw5 hY hYh1
          hYh2 hYh3 hYnl hYl hYp2 hp2
  have hmatch : ∃ v,
      matchAt (bun ++ (w1 ++ (c1 ++ (w2 ++ (X ++ (w3 ++ (p1 ++ (chan ++ (gOpt ++
          (w4 ++ (c2 ++ (w5 ++ (Y ++ p2)))))))))))))
        = (X, Y) :: v := by
    unfold matchAt
    have hXThd : isWs (X ++ (w3 ++ (p1 ++ (chan ++ (gOpt ++ (w4 ++ (c2 ++ (w5 ++
        (Y ++ p2))))))))).headI = false := by
      rw [headI_append hX]
      exact hXh1
    have hXTne : X ++ (w3 ++ (p1 ++ (chan ++ (gOpt ++ (w4 ++ (c2 ++ (w5 ++ (Y ++ p2))))))))
        ≠ [] := fun h0 => hX (List.append_eq_nil.mp h0).1
    refine flatMap_starts2
        (w1 ++ (c1 ++ (w2 ++ (X ++ (w3 ++ (p1 ++ (chan ++ (gOpt ++
          (w4 ++ (c2 ++ (w5 ++ (Y ++ p2))))))))))))
        ⟨[], litP_self bun _⟩ ?_
    rcases hc1 with h | h <;> subst h
    · have hassoc : w1 ++ (([] : List Char) ++ (w2 ++ (X ++ (w3 ++ (p1 ++ (chan ++
          (gOpt ++ (w4 ++ (c2 ++ (w5 ++ (Y ++ p2)))))))))))
            = (w1 ++ w2) ++ (X ++ (w3 ++ (p1 ++ (chan ++ (gOpt ++
              (w4 ++ (c2 ++ (w5 ++ (Y ++ p2))))))))) := by
        simp [List.append_assoc]
      rw [hassoc]
      refine flatMap_starts2
          (X ++ (w3 ++ (p1 ++ (chan ++ (gOpt ++ (w4 ++ (c2 ++ (w5 ++ (Y ++ p2))))))))) ?_ ?_
      · refine wsP_starts ?_ (Or.inr hXThd)
        intro c hc
        rcases List.mem_append.mp hc with h1 | h1
        exacts [hw1 c h1, hw2 c h1]
      · refine flatMap_starts2
            (X ++ (w3 ++ (p1 ++ (chan ++ (gOpt ++ (w4 ++ (c2 ++ (w5 ++ (Y ++ p2)))))))))
            ⟨[], optP_ne_head hXTne ?_⟩ ?_
        · rw [headI_append hX]
          exact hXh2
        · refine flatMap_starts2
              (X ++ (w3 ++ (p1 ++ (chan ++ (gOpt ++ (w4 ++ (c2 ++ (w5 ++ (Y ++ p2)))))))))
              ?_ ?_
          · exact wsP_self hXThd
          · exact hXT
    · refine flatMap_starts2
          ([':'] ++ (w2 ++ (X ++ (w3 ++ (p1 ++ (chan ++ (gOpt ++
            (w4 ++ (c2 ++ (w5 ++ (Y ++ p2))))))))))) ?_ ?_
      · exact wsP_starts hw1 (Or.inr rfl)
      refine flatMap_starts2
          (w2 ++ (X ++ (w3 ++ (p1 ++ (chan ++ (gOpt ++ (w4 ++ (c2 ++ (w5 ++ (Y ++ p2))))))))))
          ⟨[':' :: (w2 ++ (X ++ (w3 ++ (p1 ++ (chan ++ (gOpt ++
            (w4 ++ (c2 ++ (w5 ++ (Y ++ p2))))))))))], ?_⟩ ?_
      · show optP ':'
            (':' :: (w2 ++ (X ++ (w3 ++ (p1 ++ (chan ++ (gOpt ++
              (w4 ++ (c2 ++ (w5 ++ (Y ++ p2)))))))))))
            = (w2 ++ (X ++ (w3 ++ (p1 ++ (chan ++ (gOpt ++
                (w4 ++ (c2 ++ (w5 ++ (Y ++ p2))))))))))
              :: [':' :: (w2 ++ (X ++ (w3 ++ (p1 ++ (chan ++ (gOpt ++
                (w4 ++ (c2 ++ (w5 ++ (Y ++ p2))))))))))]
        exact optP_cons_eq rfl
      · refine flatMap_starts2
            (X ++ (w3 ++ (p1 ++ (chan ++ (gOpt ++ (w4 ++ (c2 ++ (w5 ++ (Y ++ p2))))))))) ?_ ?_
        · exact wsP_starts hw2 (Or.inr hXThd)
        · exact hXT
  obtain ⟨v, hv⟩ := hmatch
  have hsearch : reSearch (bun ++ (w1 ++ (c1 ++ (w2 ++ (X ++ (w3 ++ (p1 ++ (chan ++
      (gOpt ++ (w4 ++ (c2 ++ (w5 ++ (Y ++ p2))))))))))))) = some (X, Y) :=
    reSearch_of_head (by rw [hv]; rfl)
  simp only [splitReference, hsearch]
  rw [strip_eq_self hXh1 hXl1, strip_eq_self hYh1 hYl]

/-- Claim C1 witness: the shape theorem evaluated at the concrete
reference string "본문:A(찬송:B)". -/
theorem splitReference_shape_witness :
    splitReference "본문:A(찬송:B)".data = { bible_range := ['A'], hymn := ['B'] } := by
  have heq : "본문:A(찬송:B)".data
      = bun ++ ([] ++ ([':'] ++ ([] ++ (['A'] ++ ([] ++ (['('] ++ (chan ++ ([] ++
          ([] ++ ([':'] ++ ([] ++ (['B'] ++ [')'])))))))))))) := by decide
  rw [heq]
  exact splitReference_shape [] [] [] [] [] ['A'] ['B'] [':'] ['('] [] [':'] [')']
    (by simp) (by simp) (by simp) (by simp) (by simp)
    (Or.inr rfl) (Or.inr rfl) (Or.inl rfl) (Or.inr rfl) (Or.inr rfl)
    (by decide) (by decide) (by decide) (by decide) (by decide) (by decide) (by decide)
    (by decide) (by decide) (by decide) (by decide) (by decide) (by decide) (by decide)

/-- Claim C3, counterexample: in the composed narrative, a `b_text` block
that follows an excluded subheading is NOT omitted — the code appends
`b_text` blocks regardless of the skip flag (main.py:78-80) — contradicting
the claim that all blocks following a marker-containing block up to the
next non-excluded subheading are omitted. -/
theorem composeCommentary_keeps_b_text_after_marker :
    composeCommentary
        [⟨["g_text".data], "기도하기".data⟩, ⟨["b_text".data], "서론".data⟩]
      = "서론\n\n".data ∧
    "서론".data <:+:
      composeCommentary
        [⟨["g_text".data], "기도하기".data⟩, ⟨["b_text".data], "서론".data⟩] := by
  decide

/-- Claim C3 (amended): only a subheading (`g_text`) block containing an
exclusion marker toggles the skip flag, which suppresses the following
body (`text`-class) blocks up to the next non-excluded subheading; intro
(`b_text`) blocks are always included; the composed narrative is the
in-document-order concatenation of every non-suppressed block's rendering.
Stated as: the accumulator loop of main.py:69-93 equals the
specification-style rendering fold. -/
theorem composeCommentary_eq_spec (blocks : List Block) :
    composeCommentary blocks = composeSpec false blocks := by
  simpa using composeGo_eq_append false [] blocks

/-- Claim C4, counterexample: with a header of 951 characters (and an empty
commentary) the first bubble is the header itself, of length 951 > 950;
the 950-character bound on bubble 1 fails for headers longer than 950. -/
theorem bubble1_over_950 :
    950 < (bubbles (List.replicate 951 'a') [] QT_URL).headI.length := by
  rw [bubbles_shape, pyTake_nil]
  show 950 < (List.replicate 951 'a' ++ ([] : List Char)).length
  rw [List.append_nil, List.length_replicate]
  norm_num

/-- Claim C4 (amended): whenever the header is at most 950 characters long,
the first bubble built by the `/qt` handler (header plus initial commentary
slice) has length at most 950. -/
theorem bubble1_length_le (h c url : List Char) (hh : h.length ≤ 950) :
    (bubbles h c url).headI.length ≤ 950 := by
  rw [bubbles_shape]
  have h0 : (0 : Int) ≤ 950 - (h.length : Int) := by omega
  simp only [List.headI, pyTake, h0, if_pos, List.length_append, List.length_take]
  omega

/-- Claim C4 witness: the amended bound holds at a concrete input. -/
theorem bubble1_length_le_witness :
    (List.replicate 3 'a').length ≤ 950 ∧
      (bubbles (List.replicate 3 'a') "hello".data QT_URL).headI.length ≤ 950 :=
  ⟨by decide, bubble1_length_le (List.replicate 3 'a') "hello".data QT_URL (by decide)⟩

/-- Claim C5, counterexample: with a 1000-character header and an empty
commentary we have `L + H = 1000 > 950`, yet no second content bubble is
emitted (the output list has only 2 bubbles), because the remainder slice
taken with a negative Python bound is empty. -/
theorem no_second_bubble_despite_overflow :
    950 < ([] : List Char).length + (List.replicate 1000 'a').length ∧
      (bubbles (List.replicate 1000 'a') [] QT_URL).length = 2 := by
  refine ⟨?_, ?_⟩
  · simp only [List.length_nil, List.length_replicate]
    norm_num
  · rw [bubbles_shape, pyDrop_nil]
    rfl

/-- Claim C5 (amended): whenever the header is at most 950 characters long:
if `L + H ≤ 950` the outputs are exactly the single content bubble plus the
trailer; if `L + H > 950` a second, non-empty bubble is emitted holding the
exact remaining commentary, truncated to its first 950 characters plus the
fixed suffix when the remainder exceeds 1000 characters. -/
theorem bubbles_second_ok (h c url : List Char) (hh : h.length ≤ 950) :
    (c.length + h.length ≤ 950 → bubbles h c url = [h ++ c, footer_msg url]) ∧
    (950 < c.length + h.length →
      c.drop (950 - h.length) ≠ [] ∧
      bubbles h c url =
        [h ++ c.take (950 - h.length),
          if 1000 < (c.drop (950 - h.length)).length
            then (c.drop (950 - h.length)).take 950 ++ moreSuffix
            else c.drop (950 - h.length),
          footer_msg url]) := by
  have h0 : (0 : Int) ≤ 950 - (h.length : Int) := by omega
  have htn : ((950 : Int) - (h.length : Int)).toNat = 950 - h.length := by omega
  rw [bubbles_shape]
  simp only [pyTake, pyDrop, h0, if_pos, htn]
  constructor
  · intro hle
    have hdrop : c.drop (950 - h.length) = [] := by
      rw [List.drop_eq_nil_iff]; omega
    rw [hdrop, List.take_of_length_le (by omega)]
    simp
  · intro hgt
    have hdrop : c.drop (950 - h.length) ≠ [] := by
      rw [Ne, List.drop_eq_nil_iff]; omega
    refine ⟨hdrop, ?_⟩
    simp [hdrop]

/-- Claim C5 witness: the amended statement evaluated at a concrete input
with a 949-character header and a 2-character commentary. -/
theorem bubbles_second_ok_witness :
    bubbles (List.replicate 949 'a') ['x', 'y'] QT_URL =
      [List.replicate 949 'a' ++ ['x'], ['y'], footer_msg QT_URL] := by
  have h := bubbles_second_ok (List.replicate 949 'a') ['x', 'y'] QT_URL (by decide)
  exact ((h.2 (by decide)).2).trans (by decide)

/-- Claim C8 (confirmed): the success-path output list always holds exactly
2 or exactly 3 bubbles, never more — overflow is truncated, not wrapped
into further bubbles. -/
theorem bubbles_two_or_three (h c url : List Char) :
    (bubbles h c url).length = 2 ∨ (bubbles h c url).length = 3 := by
  rw [bubbles_shape]
  by_cases hp : pyDrop c (950 - (h.length : Int)) = [] <;> simp [hp]

/-- Claim C10 (confirmed): whenever a second content bubble is emitted (the
output list has 3 entries), its length is at most 1000: the remainder is
passed through unchanged when its length is ≤ 1000, and otherwise replaced
by its first 950 characters plus the fixed 13-character suffix, 963
characters in total.  This holds for every header, including headers longer
than 950 characters. -/
theorem bubble2_bounded (h c url : List Char)
    (h3 : (bubbles h c url).length = 3) :
    ((bubbles h c url).getD 1 []).length ≤ 1000 ∧
    ((pyDrop c (950 - (h.length : Int))).length ≤ 1000 →
      (bubbles h c url).getD 1 [] = pyDrop c (950 - (h.length : Int))) ∧
    (1000 < (pyDrop c (950 - (h.length : Int))).length →
      (bubbles h c url).getD 1 []
          = (pyDrop c (950 - (h.length : Int))).take 950 ++ moreSuffix ∧
        ((bubbles h c url).getD 1 []).length = 963) := by
  have hp : pyDrop c (950 - (h.length : Int)) ≠ [] := by
    intro h0
    rw [bubbles_shape, h0] at h3
    simp at h3
  have hgd : (bubbles h c url).getD 1 []
      = (if 1000 < (pyDrop c (950 - (h.length : Int))).length
         then (pyDrop c (950 - (h.length : Int))).take 950 ++ moreSuffix
         else pyDrop c (950 - (h.length : Int))) := by
    rw [bubbles_shape, if_neg hp]
    rfl
  rw [hgd]
  have hms : moreSuffix.length = 13 := by decide
  by_cases hl : 1000 < (pyDrop c (950 - (h.length : Int))).length
  · rw [if_pos hl]
    have hlen : ((pyDrop c (950 - (h.length : Int))).take 950 ++ moreSuffix).length = 963 := by
      rw [List.length_append, List.length_take, hms]
      omega
    exact ⟨by omega, fun hc => absurd hc (by omega), fun _ => ⟨rfl, hlen⟩⟩
  · rw [if_neg hl]
    exact ⟨by omega, fun _ => rfl, fun hc => absurd hc hl⟩

/-- Claim C10 witness: the bound applied at a concrete input that produces
three bubbles. -/
theorem bubble2_bounded_witness :
    ((bubbles (List.replicate 950 'a') ['z'] QT_URL).getD 1 []).length ≤ 1000 :=
  (bubble2_bounded (List.replicate 950 'a') ['z'] QT_URL (by decide)).1

/-- Claim C6 (confirmed): a fetch-tier failure — `fetch_qt_data` catches
every exception and returns `None` (main.py:108-110), modelled as the
`none` fetch outcome — makes `/qt` answer with HTTP success (status 200)
and exactly one output bubble holding the fixed apology text, instead of
the normal bubble sequence. -/
theorem get_qt_failure_apology (b : List Char) :
    (get_qt b none).status = 200 ∧ (get_qt b none).outputs = [apology] :=
  ⟨rfl, rfl⟩

/-- Claim C7 (confirmed): for every successful fetch result (whose `url`
field is the fixed source URL, as `fetch_qt_data` always sets it), the
output list is non-empty, its last element is the fixed trailer bubble,
and that trailer contains the source URL verbatim. -/
theorem get_qt_trailer_last (b : List Char) (d : QTData) (hurl : d.url = QT_URL) :
    (get_qt b (some d)).outputs ≠ [] ∧
      (get_qt b (some d)).outputs.getLast? = some (footer_msg QT_URL) ∧
      QT_URL <:+: footer_msg QT_URL := by
  refine ⟨?_, ?_, ?_⟩
  · simp [get_qt, bubbles_shape]
  · simp only [get_qt]
    rw [bubbles_shape, hurl, ← List.cons_append, List.getLast?_concat]
  · exact ⟨"🔗 해설 전문 보기:\n".data,
      "\n\n🌟아침에 말씀으로 시작하며 하나님의 은혜 충만으로 하루를 시작해 보아요🌟".data, rfl⟩

/-- Claim C7 witness: the trailer property at a concrete fetch record. -/
theorem get_qt_trailer_last_witness :
    (QTData.mk [] [] [] [] QT_URL).url = QT_URL ∧
      (get_qt [] (some (QTData.mk [] [] [] [] QT_URL))).outputs.getLast?
        = some (footer_msg QT_URL) :=
  ⟨rfl, (get_qt_trailer_last [] (QTData.mk [] [] [] [] QT_URL) rfl).2.1⟩

/-- Claim C9 (confirmed): the `/qt` handler never inspects the request
body; two requests with arbitrary different bodies that see the same fetch
outcome receive identical responses. -/
theorem get_qt_ignores_body (b1 b2 : List Char) (f : Option QTData) :
    get_qt b1 f = get_qt b2 f := by
  cases f <;> rfl

/-- Claim C2, counterexample: on the non-matching reference string
"본문 창세기 1장" (label present but no colon), the fallback branch keeps
the leading label — the code only removes the exact forms "본문 :" and
"본문:" — contradicting the claim that the leading label (with optional
colon/whitespace) is stripped. -/
theorem splitReference_keeps_label :
    (splitReference "본문 창세기 1장".data).bible_range = "본문 창세기 1장".data ∧
      "본문 창세기 1장".data ≠ "창세기 1장".data := by
  decide

/-- Claim C2 (amended): for every reference string on which the regex does
not match, no error is raised: the hymn stays at its placeholder `"-"` and
the scripture reference is the raw string with every occurrence of the two
exact label forms "본문 :" and "본문:" removed, then whitespace-stripped. -/
theorem splitReference_nomatch (raw : List Char) (hm : reSearch raw = none) :
    splitReference raw =
      { bible_range :=
          strip (replaceAll "본문:".data [] (replaceAll "본문 :".data [] raw)),
        hymn := "-".data } := by
  simp [splitReference, hm]

/-- Claim C2 witness: the fallback behaviour evaluated at a concrete
non-matching input. -/
theorem splitReference_nomatch_witness :
    reSearch "아무거나".data = none ∧
      splitReference "아무거나".data
        = { bible_range := "아무거나".data, hymn := "-".data } :=
  ⟨by decide, (splitReference_nomatch "아무거나".data (by decide)).trans (by decide)⟩

end QT
